import Mathlib

/-!
Verification of the SHACL-Generator repository (`SHACL_Generator.py`).

The development shallowly embeds the repository's own code:

* the regex cleaning pipeline shared by `validate_shacl` and
  `auto_correct_shacl` (character-whitelist substitution, blank-line
  collapsing, two markdown-fence removals, strip, and the
  `@prefix`-dot substitution), modelled character-for-character on
  `List Char`;
* `validate_shacl` and `auto_correct_shacl` themselves, with the
  third-party rdflib Turtle parser and pyshacl validator abstracted as
  explicit function parameters (`parse`, `val`) returning `Except`
  values — a raised exception is an `Except.error`, and the Python
  `try/except` block is the corresponding `match`;
* `OpenAIClient` (`history`, `ask` with its retry loop), with the
  OpenAI API abstracted as a function from the attempt index to an
  `Except` outcome, and the side effects of a run (history growth,
  number of attempts, number of `time.sleep(5)` calls) made explicit
  in the result record;
* the `Application` wizard state (`current_step`, LLM-call count,
  destruction) and its transitions `process_use_case`,
  `process_next_step` and `ask_for_new_prompt`;
* `extract_shacl_code` and the step-2 entity/property extraction
  (`re.findall`) together with the Python-dict accumulation loop.

Python `\w` and `\s` are modelled by `isWordChar` and `isPySpace`
(the ASCII ranges; all inputs of interest are ASCII).  Python regex
substitution semantics (leftmost match, greedy/lazy quantifier order,
scanning resuming after the replaced span) are reproduced by the
recursive scanners below; each scanner's doc comment states the regex
it implements.
-/

/-- The backtick character (`Char.ofNat 96`), written this way so the
file contains no literal backtick outside strings. -/
def bq : Char := Char.ofNat 96

/-- Python regex `\w` for the ASCII range: letters, digits, underscore. -/
def isWordChar (c : Char) : Bool :=
  c.isAlpha || c.isDigit || c = '_'

/-- Python regex `\s` (ASCII): space, tab, newline, carriage return,
vertical tab, form feed. -/
def isPySpace (c : Char) : Bool :=
  c = ' ' || c = '\t' || c = '\n' || c = '\r' || c = '\x0b' || c = '\x0c'

/-- Membership in the character whitelist of the substitution
`re.sub(r'[^@;\w\s:\[\]\x7b\x7d\(\)\<\>=\.\-\"\/]+', '', doc)`:
the characters `@ ; : [ ] ( ) < > = . - " /`, braces, word characters
and whitespace are kept, everything else is removed. -/
def keepTurtleChar (c : Char) : Bool :=
  c = '@' || c = ';' || c = ':' || c = '[' || c = ']' ||
  c = '{' || c = '}' || c = '(' || c = ')' || c = '<' ||
  c = '>' || c = '=' || c = '.' || c = '-' || c = '\"' ||
  c = '/' || isWordChar c || isPySpace c

/-- `re.sub(r'[^@;\w\s:\[\]\x7b\x7d\(\)\<\>=\.\-\"\/]+', '', doc)`:
replacing every run of non-whitelisted characters by the empty string
is exactly filtering by the whitelist. -/
def removeNonTurtle (l : List Char) : List Char :=
  l.filter keepTurtleChar

/-- Helper for `re.sub(r'\n\s*\n', '\n', doc)`: given the characters
following a matched leading newline, return the suffix just after the
last newline inside the maximal whitespace run (the greedy `\s*`
backtracking to the last `\n` it can leave for the final pattern
character), or `none` when that run contains no newline. -/
def findLastNl : List Char → Option (List Char)
  | [] => none
  | c :: rest =>
    if isPySpace c then
      match findLastNl rest with
      | some suf => some suf
      | none => if c = '\n' then some rest else none
    else none

theorem findLastNl_suffix : ∀ l suf, findLastNl l = some suf → suf <:+ l := by
  intro l
  induction l with
  | nil => intro suf h; simp [findLastNl] at h
  | cons c rest ih =>
    intro suf h
    simp only [findLastNl] at h
    by_cases hc : isPySpace c
    · simp only [hc, if_true] at h
      rcases hrec : findLastNl rest with _ | suf'
      · rw [hrec] at h
        by_cases hn : c = '\n'
        · simp [hn] at h
          subst h
          exact List.suffix_cons c rest
        · simp [hn] at h
      · rw [hrec] at h
        simp at h
        subst h
        exact (ih suf' hrec).trans (List.suffix_cons c rest)
    · simp [hc] at h

theorem findLastNl_length {l suf} (h : findLastNl l = some suf) :
    suf.length ≤ l.length :=
  (findLastNl_suffix l suf h).length_le

/-- Fuelled scanner for `re.sub(r'\n\s*\n', '\n', doc)`: scanning
left to right, each newline followed by a whitespace run containing
another newline is collapsed (together with that run, up to its last
newline) into a single newline; scanning resumes after the replaced
span.  Every call strictly shortens the input, so fuel one more than
the input length never runs out. -/
def cnGo : Nat → List Char → List Char
  | 0, l => l
  | _ + 1, [] => []
  | fuel + 1, c :: rest =>
    if c = '\n' then
      match findLastNl rest with
      | some suf => '\n' :: cnGo fuel suf
      | none => '\n' :: cnGo fuel rest
    else c :: cnGo fuel rest

/-- `re.sub(r'\n\s*\n', '\n', doc)`. -/
def collapseNewlines (l : List Char) : List Char :=
  cnGo (l.length + 1) l

/-- The characters of the literal `turtle` tag. -/
def turtleTag : List Char := ['t', 'u', 'r', 't', 'l', 'e']

/-- The characters of the literal `ttl` tag. -/
def ttlTag : List Char := ['t', 't', 'l']

/-- After a matched fence opening, drop the optional `(turtle|ttl)`
tag (the alternation tries `turtle` first, then `ttl`, then the empty
alternative). -/
def dropFenceTag (l : List Char) : List Char :=
  if turtleTag.isPrefixOf l then l.drop 6
  else if ttlTag.isPrefixOf l then l.drop 3
  else l

/-- Fuelled scanner for `re.sub(r'```(turtle|ttl)?\s*', '', doc)`
(three backticks, an optional tag, then greedy whitespace), with
scanning resuming after each removed span; the fuel, one more than
the input length, strictly decreases on every call. -/
def rftGo : Nat → List Char → List Char
  | 0, l => l
  | _ + 1, [] => []
  | fuel + 1, c :: rest =>
    if c = bq ∧ rest.take 2 = [bq, bq] then
      rftGo fuel ((dropFenceTag (rest.drop 2)).dropWhile isPySpace)
    else c :: rftGo fuel rest

/-- `re.sub(r'```(turtle|ttl)?\s*', '', doc)`. -/
def removeFenceTagged (l : List Char) : List Char :=
  rftGo (l.length + 1) l

/-- Fuelled scanner for `re.sub(r'```\s*', '', doc)` (three backticks
then greedy whitespace), with scanning resuming after each removed
span. -/
def rfpGo : Nat → List Char → List Char
  | 0, l => l
  | _ + 1, [] => []
  | fuel + 1, c :: rest =>
    if c = bq ∧ rest.take 2 = [bq, bq] then
      rfpGo fuel ((rest.drop 2).dropWhile isPySpace)
    else c :: rfpGo fuel rest

/-- `re.sub(r'```\s*', '', doc)`. -/
def removeFencePlain (l : List Char) : List Char :=
  rfpGo (l.length + 1) l

/-- Python `str.strip()`: remove leading and trailing whitespace. -/
def stripChars (l : List Char) : List Char :=
  ((l.dropWhile isPySpace).reverse.dropWhile isPySpace).reverse

/-- Helper for the tail `\s*(?<!.)\n` of the pattern
`@prefix\s*.*?\s*(?<!.)\n`: walk the whitespace run, preferring the
deepest (greedy `\s*`) position whose preceding character is a newline
(the lookbehind `(?<!.)` rules out every non-newline predecessor) and
whose current character is the final `\n`; return the suffix after
that final newline. -/
def tailNlNl : Char → List Char → Option (List Char)
  | prev, [] => (fun _ => none) prev
  | prev, c :: rest =>
    if c = '\n' then
      match tailNlNl c rest with
      | some suf => some suf
      | none => if prev = '\n' then some rest else none
    else if isPySpace c then tailNlNl c rest
    else none

/-- Helper for the `.*?` of `@prefix\s*.*?\s*(?<!.)\n`: the lazy
quantifier tries the shortest extent first (the tail matcher at the
current point), then extends one non-newline character at a time. -/
def tryBs : Char → List Char → Option (List Char)
  | _, [] => none
  | prev, c :: rest =>
    match tailNlNl prev (c :: rest) with
    | some suf => some suf
    | none => if c = '\n' then none else tryBs c rest

/-- Helper for the leading `\s*` of `@prefix\s*.*?\s*(?<!.)\n`: the
greedy quantifier tries the longest whitespace extent first and
backtracks outward. -/
def tryAs : Char → List Char → Option (List Char)
  | prev, [] => (fun _ => none) prev
  | prev, c :: rest =>
    if isPySpace c then
      match tryAs c rest with
      | some suf => some suf
      | none => tryBs prev (c :: rest)
    else tryBs prev (c :: rest)

theorem tailNlNl_suffix : ∀ prev l suf, tailNlNl prev l = some suf → suf <:+ l := by
  intro prev l
  induction l generalizing prev with
  | nil => intro suf h; simp [tailNlNl] at h
  | cons c rest ih =>
    intro suf h
    simp only [tailNlNl] at h
    by_cases hc : c = '\n'
    · simp only [hc, if_true] at h
      rcases hrec : tailNlNl '\n' rest with _ | suf'
      · rw [hrec] at h
        by_cases hp : prev = '\n'
        · simp [hp] at h
          subst h
          exact List.suffix_cons c rest
        · simp [hp] at h
      · rw [hrec] at h
        simp at h
        subst h
        exact (ih '\n' suf' hrec).trans (List.suffix_cons c rest)
    · simp only [hc, if_false] at h
      by_cases hs : isPySpace c
      · simp only [hs, if_true] at h
        exact (ih c suf h).trans (List.suffix_cons c rest)
      · simp [hs] at h

theorem tryBs_suffix : ∀ prev l suf, tryBs prev l = some suf → suf <:+ l := by
  intro prev l
  induction l generalizing prev with
  | nil => intro suf h; simp [tryBs] at h
  | cons c rest ih =>
    intro suf h
    simp only [tryBs] at h
    rcases htail : tailNlNl prev (c :: rest) with _ | suf'
    · rw [htail] at h
      by_cases hc : c = '\n'
      · simp [hc] at h
      · simp only [hc, if_false] at h
        exact (ih c suf h).trans (List.suffix_cons c rest)
    · rw [htail] at h
      simp at h
      exact h ▸ tailNlNl_suffix prev (c :: rest) suf' htail

theorem tryAs_suffix : ∀ prev l suf, tryAs prev l = some suf → suf <:+ l := by
  intro prev l
  induction l generalizing prev with
  | nil => intro suf h; simp [tryAs] at h
  | cons c rest ih =>
    intro suf h
    simp only [tryAs] at h
    by_cases hs : isPySpace c
    · simp only [hs, if_true] at h
      rcases hrec : tryAs c rest with _ | suf'
      · rw [hrec] at h
        exact tryBs_suffix prev (c :: rest) suf h
      · rw [hrec] at h
        simp at h
        subst h
        exact (ih c suf' hrec).trans (List.suffix_cons c rest)
    · simp only [hs, if_false] at h
      exact tryBs_suffix prev (c :: rest) suf h

/-- The characters of the literal `@prefix`. -/
def atPrefixChars : List Char := ['@', 'p', 'r', 'e', 'f', 'i', 'x']

/-- Fuelled scanner for
`re.sub(r'@prefix\s*.*?\s*(?<!.)\n', r'\g<0>.\n', doc)`: at each
position where the literal `@prefix` matches, the remainder
`\s*.*?\s*(?<!.)\n` is tried with the engine's backtracking order
(`tryAs`); a match is replaced by itself followed by `.` and a
newline, and scanning resumes after the replaced span.  The fuel is
one more than the input length, which every call strictly decreases,
so the fuelled function agrees with the unbounded scan. -/
def pdsGo : Nat → List Char → List Char
  | 0, l => l
  | _ + 1, [] => []
  | fuel + 1, c :: rest =>
    if (c :: rest).take 7 = atPrefixChars then
      match tryAs 'x' ((c :: rest).drop 7) with
      | some suf =>
        atPrefixChars ++
          ((c :: rest).drop 7).take (((c :: rest).drop 7).length - suf.length) ++
          ['.', '\n'] ++ pdsGo fuel suf
      | none => c :: pdsGo fuel rest
    else c :: pdsGo fuel rest

/-- `re.sub(r'@prefix\s*.*?\s*(?<!.)\n', r'\g<0>.\n', doc)`. -/
def prefixDotSub (l : List Char) : List Char :=
  pdsGo (l.length + 1) l

/-- `re.search(r'@prefix', doc, re.IGNORECASE)`: does the document
contain `@prefix` case-insensitively? -/
def hasAtPrefixCI : List Char → Bool
  | [] => false
  | c :: rest =>
    ((c :: rest).take 7).map Char.toLower = atPrefixChars || hasAtPrefixCI rest

/-- Python `str.strip()` on `String`. -/
def stripS (s : String) : String :=
  String.mk (stripChars s.data)

/-- The cleaning pipeline of `validate_shacl` (source lines 43-50):
whitelist substitution, blank-line collapsing, the two markdown-fence
removals, `strip()`, and the `@prefix`-dot substitution, in source
order. -/
def cleanValidateDoc (s : String) : String :=
  String.mk (prefixDotSub (stripChars (removeFencePlain (removeFenceTagged
    (collapseNewlines (removeNonTurtle s.data))))))

/-- The cleaning pipeline of `auto_correct_shacl` (source lines
75-82), written out separately because the source duplicates the
code. -/
def cleanAutoDoc (s : String) : String :=
  String.mk (prefixDotSub (stripChars (removeFencePlain (removeFenceTagged
    (collapseNewlines (removeNonTurtle s.data))))))

/-- The six-prefix default block prepended by `validate_shacl` when
the cleaned document contains no `@prefix` (source lines 54-61). -/
def sixPrefixBlock : String :=
  "@prefix ex: <http://example.org/> .\n@prefix sh: <http://www.w3.org/ns/shacl#> .\n@prefix rdf: <http://www.w3.org/1999/02/22-rdf-syntax-ns#> .\n@prefix rdfs: <http://www.w3.org/2000/01/rdf-schema#> .\n@prefix xsd: <http://www.w3.org/2001/XMLSchema#> .\n@prefix schema: <https://schema.org/> .\n\n"

/-- The four-prefix default block prepended by `auto_correct_shacl`
when the cleaned document contains no `@prefix` (source lines 86-91). -/
def fourPrefixBlock : String :=
  "@prefix ex: <http://example.org/> .\n@prefix sh: <http://www.w3.org/ns/shacl#> .\n@prefix schema: <https://schema.org/> .\n@prefix xsd: <http://www.w3.org/2001/XMLSchema#> .\n\n"

/-- The document `validate_shacl` hands to the Turtle parser: the
cleaned input, with the six-prefix block prepended when no `@prefix`
is present (case-insensitively). -/
def docBeforeParseV (s : String) : String :=
  if hasAtPrefixCI (cleanValidateDoc s).data then cleanValidateDoc s
  else sixPrefixBlock ++ cleanValidateDoc s

/-- The document `auto_correct_shacl` hands to the Turtle parser: the
cleaned input, with the four-prefix block prepended when no `@prefix`
is present (case-insensitively). -/
def docBeforeParseA (s : String) : String :=
  if hasAtPrefixCI (cleanAutoDoc s).data then cleanAutoDoc s
  else fourPrefixBlock ++ cleanAutoDoc s

/-- `validate_shacl(shacl_doc)` (source lines 40-70).  The rdflib
parser and the pyshacl validator are third-party calls, abstracted as
the parameters `parse` and `val`; an exception they raise is an
`Except.error` carrying `str(e)`.  The `try/except` block catches
every exception and returns `(False, str(e))`, so the embedding is a
total function into `Bool × String`. -/
def validate_shacl {G : Type} (parse : String → Except String G)
    (val : G → Except String (Bool × String)) (shaclDoc : String) : Bool × String :=
  let d1 := String.mk (removeNonTurtle shaclDoc.data)
  let d2 := String.mk (collapseNewlines d1.data)
  let d3 := String.mk (removeFenceTagged d2.data)
  let d4 := String.mk (removeFencePlain d3.data)
  let d5 := String.mk (stripChars d4.data)
  let d6 := String.mk (prefixDotSub d5.data)
  let d7 := if hasAtPrefixCI d6.data then d6 else sixPrefixBlock ++ d6
  match parse d7 with
  | Except.error e => (false, e)
  | Except.ok g =>
    match val g with
    | Except.error e => (false, e)
    | Except.ok r => r

/-- One property dictionary as built in `process_next_step` step 2:
keys `name`, `description`, `path`, `datatype`, `minCount`,
`maxCount` (source lines 314-321). -/
structure SchemaProp where
  name : String
  description : String
  path : String
  datatype : String
  minCount : Nat
  maxCount : Nat
deriving DecidableEq, Repr

/-- The node-shape header emitted by the fallback document builder of
`auto_correct_shacl` for one class (source lines 102-105). -/
def classHeaderStr (className : String) : String :=
  "ex:" ++ className ++ "\n    a sh:NodeShape ;\n    sh:targetClass schema:" ++
    className ++ " ;\n"

/-- The property block emitted by the fallback document builder of
`auto_correct_shacl` for one property, using only its `path` field
(source lines 107-113). -/
def propBlockStr (p : SchemaProp) : String :=
  "    sh:property [\n        sh:path schema:" ++ p.path ++
    " ;\n        sh:datatype xsd:string ;\n        sh:minCount 1 ;\n        sh:maxCount 1 ;\n    ] ;\n"

/-- The `base_shacl` literal that seeds the fallback document (source
line 100); its text coincides with `fourPrefixBlock`, which the
source spells out a second time. -/
def fallbackBase : String :=
  "@prefix ex: <http://example.org/> .\n@prefix sh: <http://www.w3.org/ns/shacl#> .\n@prefix schema: <https://schema.org/> .\n@prefix xsd: <http://www.w3.org/2001/XMLSchema#> .\n\n"

/-- `auto_correct_shacl(shacl_doc, classes_and_properties)` (source
lines 72-115).  The Python dict `classes_and_properties` is an
insertion-ordered association list; the fallback document is built by
the same `+=` accumulation as the source. -/
def auto_correct_shacl {G : Type} (parse : String → Except String G)
    (shaclDoc : String) (cps : List (String × List SchemaProp)) : String :=
  let d1 := String.mk (removeNonTurtle shaclDoc.data)
  let d2 := String.mk (collapseNewlines d1.data)
  let d3 := String.mk (removeFenceTagged d2.data)
  let d4 := String.mk (removeFencePlain d3.data)
  let d5 := String.mk (stripChars d4.data)
  let d6 := String.mk (prefixDotSub d5.data)
  let d7 := if hasAtPrefixCI d6.data then d6 else fourPrefixBlock ++ d6
  match parse d7 with
  | Except.ok _ => d7
  | Except.error _ =>
    (cps.foldl
      (fun acc cp =>
        cp.2.foldl (fun a p => a ++ propBlockStr p) (acc ++ classHeaderStr cp.1))
      fallbackBase) ++ "."

/-- The fallback document of `auto_correct_shacl`, written as the
four `@prefix` declarations followed by one block per
`(class, properties)` entry in order — a node shape targeting
`schema:<class>` with one `sh:property` block per property — and a
final dot. -/
def fallbackDoc (cps : List (String × List SchemaProp)) : String :=
  fallbackBase ++
    String.join (cps.map (fun cp =>
      classHeaderStr cp.1 ++ String.join (cp.2.map propBlockStr))) ++ "."

theorem foldl_append_join {α : Type} (f : α → String) :
    ∀ (l : List α) (a : String),
      l.foldl (fun x y => x ++ f y) a = a ++ String.join (l.map f) := by
  intro l
  induction l with
  | nil =>
    intro a
    apply String.ext
    simp [String.join]
  | cons x xs ih =>
    intro a
    simp only [List.foldl_cons, List.map_cons]
    rw [ih]
    apply String.ext
    simp [String.data_append]

theorem fallback_build_eq (cps : List (String × List SchemaProp)) :
    cps.foldl
      (fun acc cp =>
        cp.2.foldl (fun a p => a ++ propBlockStr p) (acc ++ classHeaderStr cp.1))
      fallbackBase =
      fallbackBase ++
        String.join (cps.map (fun cp =>
          classHeaderStr cp.1 ++ String.join (cp.2.map propBlockStr))) := by
  have h1 : ∀ (a : String), ∀ cp ∈ cps,
      cp.2.foldl (fun a p => a ++ propBlockStr p) (a ++ classHeaderStr cp.1)
        = a ++ (classHeaderStr cp.1 ++ String.join (cp.2.map propBlockStr)) := by
    intro a cp _
    rw [foldl_append_join propBlockStr cp.2 (a ++ classHeaderStr cp.1)]
    exact String.append_assoc a (classHeaderStr cp.1)
      (String.join (cp.2.map propBlockStr))
  rw [List.foldl_ext _ _ fallbackBase h1,
    foldl_append_join (fun cp => classHeaderStr cp.1 ++ String.join (cp.2.map propBlockStr)) cps fallbackBase]

/-- Number of positions at which the literal `@prefix` occurs. -/
def countAtPrefixOcc : List Char → Nat
  | [] => 0
  | c :: rest =>
    (if (c :: rest).take 7 = atPrefixChars then 1 else 0) + countAtPrefixOcc rest

/-- C2: for every input string, `validate_shacl` first applies the
regex cleaning (then the default-prefix completion), parses the
result as Turtle, runs SHACL validation, and returns the pair
`(conforms, results_text)`; an exception raised by parsing or
validation is caught and turned into `(False, str(e))`.  The
embedding is a total function into `Bool × String` for every
behaviour of the external parser and validator, so `validate_shacl`
never raises. -/
theorem validate_shacl_cleans_then_validates_never_raises :
    ∀ (G : Type) (parse : String → Except String G)
      (val : G → Except String (Bool × String)) (s : String),
      validate_shacl parse val s =
        match parse (docBeforeParseV s) with
        | Except.error e => (false, e)
        | Except.ok g =>
          match val g with
          | Except.error e => (false, e)
          | Except.ok r => r := by
  intro G parse val s
  rfl

/-- C3: for every input string and classes-and-properties table, if
the cleaned input parses as Turtle then `auto_correct_shacl` returns
the cleaned document unchanged, and if parsing fails it returns the
fallback document — four `@prefix` declarations followed by, for each
`(class, properties)` entry in order, one `sh:NodeShape` targeting
`schema:<class>` with one `sh:property` block per property using that
property's `path` field, with a final dot appended; being a total
function for every parser behaviour, it never raises. -/
theorem auto_correct_shacl_returns_cleaned_or_fallback :
    ∀ (G : Type) (parse : String → Except String G) (s : String)
      (cps : List (String × List SchemaProp)),
      auto_correct_shacl parse s cps =
        match parse (docBeforeParseA s) with
        | Except.ok _ => docBeforeParseA s
        | Except.error _ => fallbackDoc cps := by
  intro G parse s cps
  have hdef : auto_correct_shacl parse s cps =
      match parse (docBeforeParseA s) with
      | Except.ok _ => docBeforeParseA s
      | Except.error _ =>
        (cps.foldl
          (fun acc cp =>
            cp.2.foldl (fun a p => a ++ propBlockStr p) (acc ++ classHeaderStr cp.1))
          fallbackBase) ++ "." := rfl
  rw [hdef]
  cases parse (docBeforeParseA s) with
  | ok g => rfl
  | error e =>
    show _ ++ "." = fallbackDoc cps
    rw [fallback_build_eq]
    rfl

theorem bq_not_kept : keepTurtleChar bq = false := by decide

theorem bq_not_mem_removeNonTurtle (l : List Char) : bq ∉ removeNonTurtle l := by
  intro h
  have hk := (List.mem_filter.1 h).2
  rw [bq_not_kept] at hk
  exact Bool.false_ne_true hk

theorem rftGo_of_no_bq : ∀ (fuel : Nat) (l : List Char), bq ∉ l → rftGo fuel l = l := by
  intro fuel
  induction fuel with
  | zero => intro l _; rfl
  | succ n ih =>
    intro l h
    cases l with
    | nil => rfl
    | cons c rest =>
      have hc : ¬(c = bq ∧ rest.take 2 = [bq, bq]) := by
        intro hand
        exact h (hand.1 ▸ List.mem_cons_self c rest)
      rw [rftGo, if_neg hc, ih rest (fun hm => h (List.mem_cons_of_mem c hm))]

theorem removeFenceTagged_of_no_bq (l : List Char) (h : bq ∉ l) :
    removeFenceTagged l = l :=
  rftGo_of_no_bq (l.length + 1) l h

theorem rfpGo_of_no_bq : ∀ (fuel : Nat) (l : List Char), bq ∉ l → rfpGo fuel l = l := by
  intro fuel
  induction fuel with
  | zero => intro l _; rfl
  | succ n ih =>
    intro l h
    cases l with
    | nil => rfl
    | cons c rest =>
      have hc : ¬(c = bq ∧ rest.take 2 = [bq, bq]) := by
        intro hand
        exact h (hand.1 ▸ List.mem_cons_self c rest)
      rw [rfpGo, if_neg hc, ih rest (fun hm => h (List.mem_cons_of_mem c hm))]

theorem removeFencePlain_of_no_bq (l : List Char) (h : bq ∉ l) :
    removeFencePlain l = l :=
  rfpGo_of_no_bq (l.length + 1) l h

/-- C8: the character-whitelist substitution removes every backtick,
so on its output the two markdown-fence-removal substitutions match
nothing: applying them after the whitelist substitution equals
applying the whitelist substitution alone. -/
theorem fence_removal_noop_after_whitelist :
    ∀ s : String,
      bq ∉ removeNonTurtle s.data ∧
      removeFenceTagged (removeNonTurtle s.data) = removeNonTurtle s.data ∧
      removeFencePlain (removeNonTurtle s.data) = removeNonTurtle s.data ∧
      removeFencePlain (removeFenceTagged (removeNonTurtle s.data)) =
        removeNonTurtle s.data := by
  intro s
  have h0 := bq_not_mem_removeNonTurtle s.data
  have h1 := removeFenceTagged_of_no_bq _ h0
  have h2 := removeFencePlain_of_no_bq _ h0
  exact ⟨h0, h1, h2, by rw [h1, h2]⟩

set_option maxRecDepth 100000 in
/-- C6: `validate_shacl` and `auto_correct_shacl` apply the identical
sequence of cleaning steps — the two pipelines, written out
separately from the duplicated source lines, agree on every input —
and each then prepends its default block exactly when the cleaned
document contains no `@prefix` (case-insensitively); the blocks
differ, declaring six prefixes in `validate_shacl` and four in
`auto_correct_shacl`. -/
theorem cleaning_pipelines_agree :
    ∀ s : String,
      cleanValidateDoc s = cleanAutoDoc s ∧
      docBeforeParseV s =
        (if hasAtPrefixCI (cleanValidateDoc s).data then cleanValidateDoc s
         else sixPrefixBlock ++ cleanValidateDoc s) ∧
      docBeforeParseA s =
        (if hasAtPrefixCI (cleanAutoDoc s).data then cleanAutoDoc s
         else fourPrefixBlock ++ cleanAutoDoc s) ∧
      countAtPrefixOcc sixPrefixBlock.data = 6 ∧
      countAtPrefixOcc fourPrefixBlock.data = 4 ∧
      sixPrefixBlock ≠ fourPrefixBlock := by
  intro s
  exact ⟨rfl, rfl, rfl, by decide, by decide, by decide⟩

/-- One chat message, as the dicts held in `OpenAIClient.history`. -/
structure Msg where
  role : String
  content : String
deriving DecidableEq, Repr

/-- The system message installed by `OpenAIClient.__init__`. -/
def systemMsg : Msg :=
  ⟨"system", "You are an assistant responding to queries about Schema.org concepts."⟩

/-- A user message as appended by `ask`. -/
def userMsg (p : String) : Msg := ⟨"user", p⟩

/-- An assistant message as appended by `ask` after a successful call. -/
def assistantMsg (c : String) : Msg := ⟨"assistant", c⟩

/-- `OpenAIClient.history` right after `__init__`. -/
def initHistory : List Msg := [systemMsg]

/-- The observable outcome of one `ask` call: the returned value
(`Except.error` models the raised exception, `Except.ok none` the
implicit `return None` when the loop body never runs), the final
history, the number of API attempts made, and the number of
`time.sleep(5)` calls. -/
structure AskOut where
  res : Except String (Option String)
  hist : List Msg
  attempts : Nat
  sleeps : Nat
deriving Repr

/-- The exception message raised after the last failed attempt. -/
def errMsg (m : Nat) (e : String) : String :=
  "Error communicating with OpenAI API after " ++ toString m ++ " attempts: " ++ e

/-- Does this API outcome model a raised exception? -/
def isErr : Except String String → Bool
  | Except.error _ => true
  | Except.ok _ => false

/-- Does this `ask` result model a raised exception? -/
def isErrRes : Except String (Option String) → Bool
  | Except.error _ => true
  | Except.ok _ => false

/-- The retry loop of `OpenAIClient.ask` (source lines 21-38), from
iteration `attempt` on.  `api` maps the attempt index to the outcome
of `self.client.chat.completions.create(...)` followed by the
`choices[0].message.content` projection.  Each iteration first
appends the user prompt to the history (inside the `try`, so it stays
there on failure); on success it appends the assistant reply and
returns the content; on failure it sleeps and retries unless this was
the last attempt, in which case it raises. -/
def OpenAIClient.askGo (api : Nat → Except String String) (p : String) (m : Nat) :
    Nat → List Msg → Nat → Nat → AskOut
  | attempt, hist, att, sl =>
    if h : attempt < m then
      let hist' := hist ++ [userMsg p]
      match api attempt with
      | Except.ok c => ⟨Except.ok (some c), hist' ++ [assistantMsg c], att + 1, sl⟩
      | Except.error e =>
        if attempt < m - 1 then
          OpenAIClient.askGo api p m (attempt + 1) hist' (att + 1) (sl + 1)
        else ⟨Except.error (errMsg m e), hist', att + 1, sl⟩
    else ⟨Except.ok none, hist, att, sl⟩
termination_by attempt _ _ _ => m - attempt
decreasing_by omega

/-- `OpenAIClient.ask(prompt, model, max_retries)` run on a given
history.  The `model` argument only parametrises the external call
and is absorbed into `api`; the source's default `max_retries` is 3. -/
def OpenAIClient.ask (api : Nat → Except String String) (p : String) (m : Nat)
    (hist : List Msg) : AskOut :=
  OpenAIClient.askGo api p m 0 hist 0 0

/-- `Application.ask_for_new_prompt` (source lines 177-185) acting on
the client history: when the dialog returns a truthy string, the new
prompt is appended to the history directly and then `ask` is called
with it (appending it once more per attempt); otherwise nothing
happens. -/
def ask_for_new_prompt (api : Nat → Except String String)
    (newPrompt : Option String) (hist : List Msg) :
    List Msg × Option (Except String (Option String)) :=
  match newPrompt with
  | none => (hist, none)
  | some s =>
    if s = "" then (hist, none)
    else
      let out := OpenAIClient.ask api s 3 (hist ++ [userMsg s])
      (out.hist, some out.res)

theorem askGo_success (api : Nat → Except String String) (p : String) (m : Nat) :
    ∀ (d k attempt : Nat) (c : String) (hist : List Msg) (att sl : Nat),
      k - attempt = d → attempt ≤ k → k < m → api k = Except.ok c →
      (∀ j, attempt ≤ j → j < k → isErr (api j) = true) →
      OpenAIClient.askGo api p m attempt hist att sl =
        ⟨Except.ok (some c),
         hist ++ List.replicate (k + 1 - attempt) (userMsg p) ++ [assistantMsg c],
         att + (k + 1 - attempt), sl + (k - attempt)⟩ := by
  intro d
  induction d with
  | zero =>
    intro k attempt c hist att sl hd h1 h2 h3 h4
    have hak : attempt = k := by omega
    subst hak
    rw [OpenAIClient.askGo, dif_pos h2, h3]
    have hr : attempt + 1 - attempt = 1 := by omega
    have hz : attempt - attempt = 0 := by omega
    rw [hr, hz]
    simp
  | succ n ih =>
    intro k attempt c hist att sl hd h1 h2 h3 h4
    have hlt : attempt < k := by omega
    have hm1 : attempt < m - 1 := by omega
    have hmm : attempt < m := by omega
    have herr := h4 attempt (Nat.le_refl _) hlt
    rw [OpenAIClient.askGo, dif_pos hmm]
    cases hapi : api attempt with
    | ok c0 =>
      rw [hapi] at herr
      simp [isErr] at herr
    | error e =>
      dsimp only
      rw [if_pos hm1]
      rw [ih k (attempt + 1) c (hist ++ [userMsg p]) (att + 1) (sl + 1)
        (by omega) (by omega) h2 h3 (fun j hj1 hj2 => h4 j (by omega) hj2)]
      have e1 : k + 1 - attempt = (k + 1 - (attempt + 1)) + 1 := by omega
      have e2 : k - attempt = (k - (attempt + 1)) + 1 := by omega
      rw [e1, e2]
      simp [List.replicate_succ, List.append_assoc]
      constructor
      · omega
      · omega

theorem askGo_allfail (api : Nat → Except String String) (p : String) (m : Nat) :
    ∀ (d attempt : Nat) (hist : List Msg) (att sl : Nat),
      m - 1 - attempt = d → attempt < m →
      (∀ j, attempt ≤ j → j < m → isErr (api j) = true) →
      ∃ e, api (m - 1) = Except.error e ∧
        OpenAIClient.askGo api p m attempt hist att sl =
          ⟨Except.error (errMsg m e), hist ++ List.replicate (m - attempt) (userMsg p),
           att + (m - attempt), sl + (m - 1 - attempt)⟩ := by
  intro d
  induction d with
  | zero =>
    intro attempt hist att sl hd h1 h4
    have hak : attempt = m - 1 := by omega
    have herr := h4 attempt (Nat.le_refl _) h1
    cases hapi : api attempt with
    | ok c0 =>
      rw [hapi] at herr
      simp [isErr] at herr
    | error e =>
      refine ⟨e, hak ▸ hapi, ?_⟩
      rw [OpenAIClient.askGo, dif_pos h1, hapi]
      dsimp only
      rw [if_neg (by omega : ¬attempt < m - 1)]
      have hr : m - attempt = 1 := by omega
      have hz : m - 1 - attempt = 0 := by omega
      rw [hr, hz]
      simp [hak]
  | succ n ih =>
    intro attempt hist att sl hd h1 h4
    have hm1 : attempt < m - 1 := by omega
    have herr := h4 attempt (Nat.le_refl _) h1
    cases hapi : api attempt with
    | ok c0 =>
      rw [hapi] at herr
      simp [isErr] at herr
    | error e =>
      obtain ⟨e', he', heq⟩ := ih (attempt + 1) (hist ++ [userMsg p]) (att + 1) (sl + 1)
        (by omega) (by omega) (fun j hj1 hj2 => h4 j (by omega) hj2)
      refine ⟨e', he', ?_⟩
      rw [OpenAIClient.askGo, dif_pos h1, hapi]
      dsimp only
      rw [if_pos hm1, heq]
      have e1 : m - attempt = (m - (attempt + 1)) + 1 := by omega
      have e2 : m - 1 - attempt = (m - 1 - (attempt + 1)) + 1 := by omega
      rw [e1, e2]
      simp [List.replicate_succ, List.append_assoc]
      constructor
      · omega
      · omega

theorem askGo_err_iff (api : Nat → Except String String) (p : String) (m : Nat) :
    ∀ (d attempt : Nat) (hist : List Msg) (att sl : Nat),
      m - attempt = d → attempt < m →
      (isErrRes (OpenAIClient.askGo api p m attempt hist att sl).res = true ↔
        ∀ j, attempt ≤ j → j < m → isErr (api j) = true) := by
  intro d
  induction d with
  | zero =>
    intro attempt hist att sl hd h1
    omega
  | succ n ih =>
    intro attempt hist att sl hd h1
    rw [OpenAIClient.askGo, dif_pos h1]
    cases hapi : api attempt with
    | ok c =>
      dsimp only
      constructor
      · intro hfalse
        simp [isErrRes] at hfalse
      · intro hall
        have := hall attempt (Nat.le_refl _) h1
        rw [hapi] at this
        simp [isErr] at this
    | error e =>
      dsimp only
      by_cases hm1 : attempt < m - 1
      · rw [if_pos hm1]
        rw [ih (attempt + 1) (hist ++ [userMsg p]) (att + 1) (sl + 1) (by omega) (by omega)]
        constructor
        · intro hall j hj1 hj2
          by_cases hja : j = attempt
          · subst hja
            rw [hapi]
            rfl
          · exact hall j (by omega) hj2
        · intro hall j hj1 hj2
          exact hall j (by omega) hj2
      · rw [if_neg hm1]
        constructor
        · intro _ j hj1 hj2
          have hja : j = attempt := by omega
          subst hja
          rw [hapi]
          rfl
        · intro _
          rfl

theorem askGo_attempts_le (api : Nat → Except String String) (p : String) (m : Nat) :
    ∀ (d attempt : Nat) (hist : List Msg) (att sl : Nat),
      m - attempt = d →
      (OpenAIClient.askGo api p m attempt hist att sl).attempts ≤ att + (m - attempt) := by
  intro d
  induction d with
  | zero =>
    intro attempt hist att sl hd
    rw [OpenAIClient.askGo, dif_neg (by omega : ¬attempt < m)]
    dsimp only
    omega
  | succ n ih =>
    intro attempt hist att sl hd
    rw [OpenAIClient.askGo, dif_pos (by omega : attempt < m)]
    cases hapi : api attempt with
    | ok c =>
      dsimp only
      omega
    | error e =>
      dsimp only
      by_cases hm1 : attempt < m - 1
      · rw [if_pos hm1]
        have := ih (attempt + 1) (hist ++ [userMsg p]) (att + 1) (sl + 1) (by omega)
        omega
      · rw [if_neg hm1]
        dsimp only
        omega

theorem askGo_hist (api : Nat → Except String String) (p : String) (m : Nat) :
    ∀ (d attempt : Nat) (hist : List Msg) (att sl : Nat),
      m - attempt = d →
      ∃ k, (OpenAIClient.askGo api p m attempt hist att sl).attempts = att + k ∧
        (OpenAIClient.askGo api p m attempt hist att sl).hist =
          hist ++ List.replicate k (userMsg p) ++
            (match (OpenAIClient.askGo api p m attempt hist att sl).res with
             | Except.ok (some c) => [assistantMsg c]
             | _ => []) := by
  intro d
  induction d with
  | zero =>
    intro attempt hist att sl hd
    rw [OpenAIClient.askGo, dif_neg (by omega : ¬attempt < m)]
    exact ⟨0, rfl, by simp⟩
  | succ n ih =>
    intro attempt hist att sl hd
    rw [OpenAIClient.askGo, dif_pos (by omega : attempt < m)]
    cases hapi : api attempt with
    | ok c =>
      refine ⟨1, rfl, ?_⟩
      simp [List.replicate_succ]
    | error e =>
      dsimp only
      by_cases hm1 : attempt < m - 1
      · rw [if_pos hm1]
        obtain ⟨k, hk1, hk2⟩ := ih (attempt + 1) (hist ++ [userMsg p]) (att + 1) (sl + 1) (by omega)
        refine ⟨k + 1, by omega, ?_⟩
        rw [hk2]
        simp [List.replicate_succ, List.append_assoc]
      · rw [if_neg hm1]
        refine ⟨1, rfl, ?_⟩
        simp [List.replicate_succ]

/-- C4 (amended): for every prompt and API behaviour, `ask` attempts
the call at most `max_retries` times sequentially, sleeping 5 seconds
after each failed attempt except the last (the sleep count equals the
number of failed non-final attempts); it returns the assistant's
content on the first successful attempt; and it raises if and only if
`max_retries ≥ 1` and all `max_retries` attempts fail (with
`max_retries = 0` the loop body never runs and `ask` returns `None`
without raising). -/
theorem ask_retry_spec (api : Nat → Except String String) (p : String) (m : Nat)
    (h0 : List Msg) :
    (∀ k c, k < m → api k = Except.ok c → (∀ j, j < k → isErr (api j) = true) →
      OpenAIClient.ask api p m h0 =
        ⟨Except.ok (some c),
         h0 ++ List.replicate (k + 1) (userMsg p) ++ [assistantMsg c], k + 1, k⟩) ∧
    (∀ e, 1 ≤ m → (∀ j, j < m → isErr (api j) = true) → api (m - 1) = Except.error e →
      OpenAIClient.ask api p m h0 =
        ⟨Except.error (errMsg m e), h0 ++ List.replicate m (userMsg p), m, m - 1⟩) ∧
    (isErrRes (OpenAIClient.ask api p m h0).res = true ↔
      (1 ≤ m ∧ ∀ j, j < m → isErr (api j) = true)) ∧
    (OpenAIClient.ask api p m h0).attempts ≤ m := by
  refine ⟨?_, ?_, ?_, ?_⟩
  · intro k c hk hc hprev
    have h := askGo_success api p m k k 0 c h0 0 0 rfl (by omega) hk hc
      (fun j hj1 hj2 => hprev j hj2)
    simpa using h
  · intro e hm hall hend
    obtain ⟨e', he', heq⟩ := askGo_allfail api p m (m - 1) 0 h0 0 0 rfl (by omega)
      (fun j _ hj2 => hall j hj2)
    rw [hend] at he'
    cases he'
    simpa using heq
  · by_cases hm : 1 ≤ m
    · rw [show (OpenAIClient.ask api p m h0) = OpenAIClient.askGo api p m 0 h0 0 0 from rfl]
      rw [askGo_err_iff api p m m 0 h0 0 0 (by omega) (by omega)]
      constructor
      · intro hall
        exact ⟨hm, fun j hj => hall j (by omega) hj⟩
      · intro hall j _ hj
        exact hall.2 j hj
    · have hm0 : m = 0 := by omega
      subst hm0
      rw [show (OpenAIClient.ask api p 0 h0) = OpenAIClient.askGo api p 0 0 h0 0 0 from rfl]
      rw [OpenAIClient.askGo, dif_neg (by omega : ¬(0:Nat) < 0)]
      simp [isErrRes]
  · have h := askGo_attempts_le api p m m 0 h0 0 0 rfl
    simpa [OpenAIClient.ask] using h

/-- A concrete API behaviour failing only on the first attempt. -/
def apiFirstFails : Nat → Except String String :=
  fun j => if j = 0 then Except.error ("boom") else Except.ok ("hi")

/-- Witness for `ask_retry_spec`: with the default three retries and
an API failing only once, `ask` succeeds on the second attempt after
one sleep, leaving both user copies and the reply in the history. -/
theorem ask_retry_spec_witness :
    OpenAIClient.ask apiFirstFails ("p") 3 initHistory =
      ⟨Except.ok (some ("hi")),
       initHistory ++ List.replicate 2 (userMsg ("p")) ++ [assistantMsg ("hi")], 2, 1⟩ := by
  have h := (ask_retry_spec apiFirstFails ("p") 3 initHistory).1 1 ("hi")
    (by omega) (by rfl)
    (by
      intro j hj
      have hj0 : j = 0 := by omega
      subst hj0
      rfl)
  exact h

/-- An API behaviour failing on every attempt. -/
def apiAlwaysFails : Nat → Except String String :=
  fun _ => Except.error ("boom")

/-- C4 counterexample: with `max_retries = 0` every one of the zero
attempts fails vacuously, so the claim's "raises if and only if all
max_retries attempts fail" demands an exception; but the loop body
never runs, the function falls through, and `ask` returns `None`
(`Except.ok none`) after zero attempts and zero sleeps. -/
theorem ask_zero_retries_returns_none :
    OpenAIClient.ask apiAlwaysFails ("p") 0 initHistory =
      ⟨Except.ok none, initHistory, 0, 0⟩ := by
  rw [show OpenAIClient.ask apiAlwaysFails ("p") 0 initHistory
      = OpenAIClient.askGo apiAlwaysFails ("p") 0 0 initHistory 0 0 from rfl]
  rw [OpenAIClient.askGo, dif_neg (by omega : ¬(0:Nat) < 0)]

/-- C5: the client keeps the chat history: `history` is initialised
to the single system message; a run of `ask` changes the history only
by appending — one copy of the user prompt per attempt made, then the
assistant reply when a call succeeded — and `ask_for_new_prompt`
likewise only appends; hence no operation removes or rewrites an
existing entry and the history length is monotonically
non-decreasing. -/
theorem client_history_append_only (api : Nat → Except String String) (p : String)
    (m : Nat) (h0 : List Msg) :
    initHistory = [systemMsg] ∧
    (OpenAIClient.ask api p m h0).hist =
      h0 ++ List.replicate (OpenAIClient.ask api p m h0).attempts (userMsg p) ++
        (match (OpenAIClient.ask api p m h0).res with
         | Except.ok (some c) => [assistantMsg c]
         | _ => []) ∧
    (∀ np, ∃ t, (ask_for_new_prompt api np h0).1 = h0 ++ t) ∧
    (∀ np, h0.length ≤ (ask_for_new_prompt api np h0).1.length ∧
      h0.length ≤ (OpenAIClient.ask api p m h0).hist.length) := by
  have hmain : (OpenAIClient.ask api p m h0).hist =
      h0 ++ List.replicate (OpenAIClient.ask api p m h0).attempts (userMsg p) ++
        (match (OpenAIClient.ask api p m h0).res with
         | Except.ok (some c) => [assistantMsg c]
         | _ => []) := by
    obtain ⟨k, hk1, hk2⟩ := askGo_hist api p m m 0 h0 0 0 rfl
    rw [show (OpenAIClient.ask api p m h0) = OpenAIClient.askGo api p m 0 h0 0 0 from rfl]
    rw [hk2, hk1]
    simp
  have hext : ∀ (q : String) (h1 : List Msg), ∃ t,
      (OpenAIClient.ask api q 3 h1).hist = h1 ++ t := by
    intro q h1
    obtain ⟨k, _, hk2⟩ := askGo_hist api q 3 3 0 h1 0 0 rfl
    exact ⟨_, by rw [show (OpenAIClient.ask api q 3 h1) = OpenAIClient.askGo api q 3 0 h1 0 0 from rfl,
      hk2, List.append_assoc]⟩
  have hafnp : ∀ np, ∃ t, (ask_for_new_prompt api np h0).1 = h0 ++ t := by
    intro np
    cases np with
    | none => exact ⟨[], by simp [ask_for_new_prompt]⟩
    | some s =>
      by_cases hs : s = ""
      · exact ⟨[], by simp [ask_for_new_prompt, hs]⟩
      · obtain ⟨t, ht⟩ := hext s (h0 ++ [userMsg s])
        refine ⟨[userMsg s] ++ t, ?_⟩
        simp only [ask_for_new_prompt]
        rw [if_neg hs]
        dsimp only
        rw [ht, List.append_assoc]
  refine ⟨rfl, hmain, hafnp, fun np => ⟨?_, ?_⟩⟩
  · obtain ⟨t, ht⟩ := hafnp np
    rw [ht]
    simp
  · rw [hmain]
    simp

/-- The wizard state observable in the `Application` class: the
`current_step` attribute, the number of LLM calls made so far
(`self.client.ask` invocations), and whether `self.destroy()` has
been called. -/
structure AppState where
  step : Nat
  calls : Nat
  destroyed : Bool
deriving DecidableEq, Repr

/-- `Application.__init__` (source lines 118-126): `current_step`
starts at 1, before any LLM call, with the window open. -/
def initApp : AppState := ⟨1, 0, false⟩

/-- `Application.process_use_case` (source lines 192-244): with a
blank use case it only shows a warning and returns; otherwise it
makes one LLM call (prompt 1) and sets `current_step = 1`. -/
def process_use_case (useCase : String) (s : AppState) : AppState :=
  if stripS useCase = "" then s
  else ⟨1, s.calls + 1, s.destroyed⟩

/-- `Application.process_next_step` (source lines 246-369): from step
1 one LLM call (prompt 2) and step 2; from step 2 one LLM call
(prompt 3) and step 3; from step 3 no LLM call and `self.destroy()`;
from any other value nothing. -/
def process_next_step (s : AppState) : AppState :=
  if s.step = 1 then ⟨2, s.calls + 1, s.destroyed⟩
  else if s.step = 2 then ⟨3, s.calls + 1, s.destroyed⟩
  else if s.step = 3 then ⟨s.step, s.calls, true⟩
  else s

/-- The effect of `Application.ask_for_new_prompt` on the wizard
state: one more LLM call when the dialog returns a nonempty string,
the step unchanged. -/
def give_feedback (newPrompt : Option String) (s : AppState) : AppState :=
  match newPrompt with
  | none => s
  | some q => if q = "" then s else ⟨s.step, s.calls + 1, s.destroyed⟩

/-- The wizard states reachable from `__init__` through the three
button handlers. -/
inductive ReachableApp : AppState → Prop
  | start : ReachableApp initApp
  | useCase (u : String) (s : AppState) :
      ReachableApp s → ReachableApp (process_use_case u s)
  | nextStep (s : AppState) :
      ReachableApp s → ReachableApp (process_next_step s)
  | feedback (np : Option String) (s : AppState) :
      ReachableApp s → ReachableApp (give_feedback np s)

/-- C7: the wizard is a three-step linear state machine:
`current_step` only ever holds 1, 2 or 3; a non-blank
`process_use_case` makes one LLM call and sets the step to 1;
`process_next_step` from step 1 makes one call and sets step 2, from
step 2 one call and step 3, and from step 3 makes no call and closes
the application; so a straight run makes exactly three LLM calls, one
per step, in order. -/
theorem wizard_three_step_linear :
    (∀ s, ReachableApp s → 1 ≤ s.step ∧ s.step ≤ 3) ∧
    (∀ u s, stripS u ≠ "" → process_use_case u s = ⟨1, s.calls + 1, s.destroyed⟩) ∧
    (∀ s, s.step = 1 → process_next_step s = ⟨2, s.calls + 1, s.destroyed⟩) ∧
    (∀ s, s.step = 2 → process_next_step s = ⟨3, s.calls + 1, s.destroyed⟩) ∧
    (∀ s, s.step = 3 → process_next_step s = ⟨3, s.calls, true⟩) ∧
    (∀ u, stripS u ≠ "" →
      process_use_case u initApp = ⟨1, 1, false⟩ ∧
      process_next_step (process_use_case u initApp) = ⟨2, 2, false⟩ ∧
      process_next_step (process_next_step (process_use_case u initApp)) =
        ⟨3, 3, false⟩ ∧
      process_next_step (process_next_step (process_next_step
        (process_use_case u initApp))) = ⟨3, 3, true⟩) := by
  have hinv : ∀ s, ReachableApp s → 1 ≤ s.step ∧ s.step ≤ 3 := by
    intro s h
    induction h with
    | start => exact ⟨Nat.le_refl _, by simp [initApp]⟩
    | useCase u s hs ih =>
      unfold process_use_case
      by_cases hu : stripS u = ""
      · rw [if_pos hu]
        exact ih
      · rw [if_neg hu]
        refine ⟨?_, ?_⟩ <;> (dsimp only; omega)
    | nextStep s hs ih =>
      unfold process_next_step
      by_cases h1 : s.step = 1
      · rw [if_pos h1]
        refine ⟨?_, ?_⟩ <;> (dsimp only; omega)
      · rw [if_neg h1]
        by_cases h2 : s.step = 2
        · rw [if_pos h2]
          refine ⟨?_, ?_⟩ <;> (dsimp only; omega)
        · rw [if_neg h2]
          by_cases h3 : s.step = 3
          · rw [if_pos h3]
            refine ⟨?_, ?_⟩ <;> (dsimp only; omega)
          · rw [if_neg h3]
            exact ih
    | feedback np s hs ih =>
      cases np with
      | none => exact ih
      | some q =>
        unfold give_feedback
        dsimp only
        by_cases hq : q = ""
        · rw [if_pos hq]
          exact ih
        · rw [if_neg hq]
          exact ih
  have huc : ∀ u s, stripS u ≠ "" →
      process_use_case u s = ⟨1, s.calls + 1, s.destroyed⟩ := by
    intro u s hu
    unfold process_use_case
    rw [if_neg hu]
  have h1 : ∀ s, s.step = 1 → process_next_step s = ⟨2, s.calls + 1, s.destroyed⟩ := by
    intro s h
    unfold process_next_step
    rw [if_pos h]
  have h2 : ∀ s, s.step = 2 → process_next_step s = ⟨3, s.calls + 1, s.destroyed⟩ := by
    intro s h
    unfold process_next_step
    rw [if_neg (by omega : ¬s.step = 1), if_pos h]
  have h3 : ∀ s, s.step = 3 → process_next_step s = ⟨3, s.calls, true⟩ := by
    intro s h
    unfold process_next_step
    rw [if_neg (by omega : ¬s.step = 1), if_neg (by omega : ¬s.step = 2), if_pos h, h]
  refine ⟨hinv, huc, h1, h2, h3, ?_⟩
  intro u hu
  have e0 := huc u initApp hu
  have e1 := h1 ⟨1, 1, false⟩ rfl
  have e2 := h2 ⟨2, 2, false⟩ rfl
  have e3 := h3 ⟨3, 3, false⟩ rfl
  rw [e0]
  rw [show (⟨1, initApp.calls + 1, initApp.destroyed⟩ : AppState) = ⟨1, 1, false⟩ from rfl]
  rw [e1]
  rw [show (⟨2, (⟨1, 1, false⟩ : AppState).calls + 1, (⟨1, 1, false⟩ : AppState).destroyed⟩ : AppState) = ⟨2, 2, false⟩ from rfl]
  rw [e2]
  rw [show (⟨3, (⟨2, 2, false⟩ : AppState).calls + 1, (⟨2, 2, false⟩ : AppState).destroyed⟩ : AppState) = ⟨3, 3, false⟩ from rfl]
  rw [e3]
  exact ⟨rfl, rfl, rfl, rfl⟩

/-- Witness for `wizard_three_step_linear`: the initial state obeys
the step invariant, and a straight run on the use case "x" ends at
step 3, destroyed, after exactly three LLM calls. -/
theorem wizard_three_step_linear_witness :
    (1 ≤ initApp.step ∧ initApp.step ≤ 3) ∧
    process_next_step (process_next_step (process_next_step
      (process_use_case ("x") initApp))) = ⟨3, 3, true⟩ := by
  have hu : stripS ("x") ≠ "" := by decide
  exact ⟨wizard_three_step_linear.1 initApp ReachableApp.start,
    (wizard_three_step_linear.2.2.2.2.2 ("x") hu).2.2.2⟩

/-- Fuelled scanner for `re.findall(r'- (\w+):', text)` (source lines
251 and 308): at each position, a dash, a space, a nonempty greedy
run of word characters and a colon form a match whose capture is
recorded, scanning resuming after the colon; otherwise the scan
advances one character.  The fuel, one more than the input length,
strictly decreases on every call, so it never runs out. -/
def findEntitiesGo : Nat → List Char → List String
  | 0, _ => []
  | _ + 1, [] => []
  | fuel + 1, c :: rest =>
    if c = '-' then
      match rest with
      | ' ' :: rest2 =>
        let w := rest2.takeWhile isWordChar
        match rest2.dropWhile isWordChar with
        | ':' :: r2 =>
          if w ≠ [] then String.mk w :: findEntitiesGo fuel r2
          else findEntitiesGo fuel rest
        | _ => findEntitiesGo fuel rest
      | _ => findEntitiesGo fuel rest
    else findEntitiesGo fuel rest

/-- `re.findall(r'- (\w+):', text)`. -/
def findEntities (s : String) : List String :=
  findEntitiesGo (s.data.length + 1) s.data

/-- Split a character list at its first newline (the lazy `(.*?)`
followed by `\n`): the captured characters before it and the suffix
after it, or `none` when no newline follows. -/
def splitAtNewline : List Char → Option (List Char × List Char)
  | [] => none
  | c :: rest =>
    if c = '\n' then some ([], rest)
    else
      match splitAtNewline rest with
      | some (a, b) => some (c :: a, b)
      | none => none

/-- Fuelled scanner for `re.findall(r'- (\w+): (.*?)\n', text)`
(source line 312): dash, space, a nonempty word-character run, colon,
space, then a lazy capture up to the first newline; scanning resumes
after that newline. -/
def findPropsGo : Nat → List Char → List (String × String)
  | 0, _ => []
  | _ + 1, [] => []
  | fuel + 1, c :: rest =>
    if c = '-' then
      match rest with
      | ' ' :: rest2 =>
        let w := rest2.takeWhile isWordChar
        match rest2.dropWhile isWordChar with
        | ':' :: ' ' :: r2 =>
          if w ≠ [] then
            match splitAtNewline r2 with
            | some (d, r3) => (String.mk w, String.mk d) :: findPropsGo fuel r3
            | none => findPropsGo fuel rest
          else findPropsGo fuel rest
        | _ => findPropsGo fuel rest
      | _ => findPropsGo fuel rest
    else findPropsGo fuel rest

/-- `re.findall(r'- (\w+): (.*?)\n', text)`. -/
def findProps (s : String) : List (String × String) :=
  findPropsGo (s.data.length + 1) s.data

/-- Python `str.lower()` for the ASCII range: lowercase every
character. -/
def lowerStr (s : String) : String :=
  String.mk (s.data.map Char.toLower)

/-- The property dict built in the step-2 loop (source lines
314-321): name and description from the match, `path` the lowercased
name, and the constant datatype and count fields. -/
def mkProp (pr : String × String) : SchemaProp :=
  ⟨pr.1, pr.2, lowerStr pr.1, "xsd:string", 1, 1⟩

/-- Python dict assignment `d[k] = v` on an insertion-ordered
association list: overwrite the existing entry in place, or append a
new one. -/
def setKey {α : Type} : List (String × α) → String → α → List (String × α)
  | [], k, v => [(k, v)]
  | p :: rest, k, v => if p.1 = k then (k, v) :: rest else p :: setKey rest k v

/-- Python dict lookup `d[k]`. -/
def lookupKey {α : Type} : List (String × α) → String → Option α
  | [], _ => none
  | p :: rest, k => if p.1 = k then some p.2 else lookupKey rest k

/-- The `classes_and_properties` accumulation of the step-2 branch of
`process_next_step` (source lines 308-321): for each entity found in
the displayed text, for each property matched anywhere in the text,
the entity's entry is reassigned to the one-element list holding that
property. -/
def step2Extract (text : String) : List (String × List SchemaProp) :=
  (findEntities text).foldl
    (fun d e => (findProps text).foldl (fun d' pr => setKey d' e [mkProp pr]) d)
    []

theorem lookupKey_setKey_same {α : Type} :
    ∀ (d : List (String × α)) (k : String) (v : α),
      lookupKey (setKey d k v) k = some v := by
  intro d
  induction d with
  | nil => intro k v; simp [setKey, lookupKey]
  | cons p rest ih =>
    intro k v
    by_cases hp : p.1 = k
    · simp [setKey, hp, lookupKey]
    · simp [setKey, hp, lookupKey, ih]

theorem lookupKey_setKey_other {α : Type} :
    ∀ (d : List (String × α)) (k k' : String) (v : α), k' ≠ k →
      lookupKey (setKey d k' v) k = lookupKey d k := by
  intro d
  induction d with
  | nil => intro k k' v hk; simp [setKey, lookupKey, hk]
  | cons p rest ih =>
    intro k k' v hk
    by_cases hp : p.1 = k'
    · simp [setKey, hp, lookupKey, hk]
    · by_cases hpk : p.1 = k
      · simp [setKey, hp, lookupKey, hpk, Ne.symm hk]
      · simp [setKey, hp, lookupKey, hpk, ih _ _ _ hk]

theorem setKey_setKey_same {α : Type} :
    ∀ (d : List (String × α)) (k : String) (v w : α),
      setKey (setKey d k v) k w = setKey d k w := by
  intro d
  induction d with
  | nil => intro k v w; simp [setKey]
  | cons p rest ih =>
    intro k v w
    by_cases hp : p.1 = k
    · simp [setKey, hp]
    · simp [setKey, hp, ih]

theorem inner_fold_last {α : Type} (f : (String × String) → α) (e : String) :
    ∀ (ps : List (String × String)) (d : List (String × α)) (pr : String × String),
      ps.getLast? = some pr →
      ps.foldl (fun d' q => setKey d' e (f q)) d = setKey d e (f pr) := by
  intro ps
  induction ps with
  | nil => intro d pr h; simp at h
  | cons hd tl ih =>
    intro d pr h
    cases tl with
    | nil =>
      simp at h
      subst h
      simp
    | cons hd2 tl2 =>
      rw [List.getLast?_cons_cons] at h
      rw [List.foldl_cons, ih (setKey d e (f hd)) pr h, setKey_setKey_same]

theorem outer_fold_keeps {α : Type} (v : α) :
    ∀ (es : List String) (d : List (String × α)) (e : String),
      lookupKey d e = some v →
      lookupKey (es.foldl (fun d' e' => setKey d' e' v) d) e = some v := by
  intro es
  induction es with
  | nil => intro d e h; simpa using h
  | cons e' es' ih =>
    intro d e h
    rw [List.foldl_cons]
    apply ih
    by_cases he : e' = e
    · subst he
      exact lookupKey_setKey_same d e' v
    · rw [lookupKey_setKey_other d e e' v he]
      exact h

theorem fold_setKey_mem {α : Type} (v : α) :
    ∀ (es : List String) (d : List (String × α)) (e : String), e ∈ es →
      lookupKey (es.foldl (fun d' e' => setKey d' e' v) d) e = some v := by
  intro es
  induction es with
  | nil => intro d e h; simp at h
  | cons e' es' ih =>
    intro d e h
    rw [List.foldl_cons]
    rcases List.mem_cons.1 h with rfl | hmem
    · exact outer_fold_keeps v es' (setKey d e v) e (lookupKey_setKey_same d e v)
    · exact ih (setKey d e' v) e hmem

/-- C9: in the step-2 branch of `process_next_step`, the
`classes_and_properties` entry of an entity is reassigned on each
iteration of the inner property loop, so after the loops every entity
found in the text maps to the one-element list holding only the last
property matched anywhere in the response text (and to nothing at all
when no property matched). -/
theorem step2_last_property_overwrites (text : String) (e : String)
    (he : e ∈ findEntities text) :
    lookupKey (step2Extract text) e =
      (findProps text).getLast?.map (fun pr => [mkProp pr]) := by
  unfold step2Extract
  cases hps : (findProps text).getLast? with
  | none =>
    have hnil : findProps text = [] := List.getLast?_eq_none.1 hps
    rw [hnil]
    simp only [List.foldl_nil]
    have hid : ∀ (xs : List String),
        xs.foldl (fun (d : List (String × List SchemaProp)) _ => d) [] = [] := by
      intro xs
      induction xs with
      | nil => rfl
      | cons x xs2 ihx => rw [List.foldl_cons]; exact ihx
    rw [hid]
    rfl
  | some pr =>
    rw [List.foldl_ext _ (fun d e' => setKey d e' [mkProp pr]) []
      (fun d e' _ => inner_fold_last (fun q => [mkProp q]) e' (findProps text) d pr hps)]
    rw [Option.map_some']
    exact fold_setKey_mem [mkProp pr] (findEntities text) [] e he

/-- Witness for `step2_last_property_overwrites`: on a two-entity,
two-property response, entity `A` ends up mapped to the single
property `B` — the last match in the whole text — not to its own
property `x`. -/
theorem step2_last_property_overwrites_witness :
    lookupKey (step2Extract ("- A: x\n- B: y\n")) ("A") =
      some [⟨("B"), ("y"), ("b"), ("xsd:string"), 1, 1⟩] := by
  have h := step2_last_property_overwrites ("- A: x\n- B: y\n") ("A") (by decide)
  rw [h]
  decide

/-- The lazy capture `(.*?)` before the closing triple backtick of
`extract_shacl_code`'s pattern (with `re.DOTALL`, so newlines are
captured too): the characters before the first closing fence, or
`none` when no closing fence follows. -/
def takeUntilFence : List Char → Option (List Char)
  | [] => none
  | c :: rest =>
    if c = bq ∧ rest.take 2 = [bq, bq] then some []
    else
      match takeUntilFence rest with
      | some a => some (c :: a)
      | none => none

/-- After a matched opening fence of `r"```(?:turtle)?\s*(.*?)```"`:
the optional `turtle` tag, greedy whitespace (safe: no backtick is
whitespace, so the greedy run never hides a closing fence), then the
lazy capture up to the first closing fence. -/
def fenceBlockAfterOpen (l : List Char) : Option (List Char) :=
  takeUntilFence ((if turtleTag.isPrefixOf l then l.drop 6 else l).dropWhile isPySpace)

/-- `re.search(r"```(?:turtle)?\s*(.*?)```", text, re.DOTALL)`: try
each start position left to right; at a triple backtick the rest of
the pattern is tried, and on failure the scan advances one
character. -/
def extractFirstFence : List Char → Option (List Char)
  | [] => none
  | c :: rest =>
    if c = bq ∧ rest.take 2 = [bq, bq] then
      match fenceBlockAfterOpen (rest.drop 2) with
      | some content => some content
      | none => extractFirstFence rest
    else extractFirstFence rest

/-- `Application.extract_shacl_code` (source lines 166-175): the
stripped first fenced block when the search succeeds, the whole text
stripped otherwise. -/
def extract_shacl_code (text : String) : String :=
  match extractFirstFence text.data with
  | some content => stripS (String.mk content)
  | none => stripS text

/-- Written from the claim's words: the contents of a fenced code
block opening at position `i` — three backticks, an optional `turtle`
tag, then everything up to the closing three backticks — or `none`
when no block opens there. -/
def fenceContentAt (l : List Char) (i : Nat) : Option (List Char) :=
  if (l.drop i).take 3 = [bq, bq, bq] then fenceBlockAfterOpen (l.drop (i + 3))
  else none

/-- Written from the claim's words: the contents of the first fenced
code block of the text — the block at the leftmost position where one
opens and closes. -/
def firstFencedBlock (l : List Char) : Option (List Char) :=
  (List.range l.length).findSome? (fenceContentAt l)

theorem findSome?_map_general {α β γ : Type} (g : α → β) (f : β → Option γ) :
    ∀ xs : List α, (xs.map g).findSome? f = xs.findSome? (fun x => f (g x)) := by
  intro xs
  induction xs with
  | nil => rfl
  | cons x xs2 ih =>
    rw [List.map_cons, List.findSome?_cons, List.findSome?_cons, ih]

theorem fenceContentAt_succ (c : Char) (rest : List Char) (i : Nat) :
    fenceContentAt (c :: rest) (i + 1) = fenceContentAt rest i := by
  unfold fenceContentAt
  have h1 : (c :: rest).drop (i + 1) = rest.drop i := List.drop_succ_cons
  have h2 : (c :: rest).drop (i + 1 + 3) = rest.drop (i + 3) := by
    rw [show i + 1 + 3 = (i + 3) + 1 from by omega]
    exact List.drop_succ_cons
  rw [h1, h2]

theorem fenceContentAt_zero (c : Char) (rest : List Char) :
    fenceContentAt (c :: rest) 0 =
      (if c = bq ∧ rest.take 2 = [bq, bq] then fenceBlockAfterOpen (rest.drop 2)
       else none) := by
  unfold fenceContentAt
  simp only [List.drop_zero, List.take_succ_cons, Nat.zero_add, List.drop_succ_cons]
  by_cases hc : c = bq ∧ rest.take 2 = [bq, bq]
  · rw [if_pos hc, if_pos (by rw [hc.1, hc.2])]
  · rw [if_neg hc, if_neg ?hne]
    intro heq
    have h1 : c = bq := by
      have := congrArg (fun t => t.head?) heq
      simpa using this
    have h2 : rest.take 2 = [bq, bq] := by
      have := congrArg (fun t => t.tail) heq
      simpa using this
    exact hc ⟨h1, h2⟩

theorem extractFirstFence_eq : ∀ l, extractFirstFence l = firstFencedBlock l := by
  intro l
  induction l with
  | nil => rfl
  | cons c rest ih =>
    unfold firstFencedBlock
    rw [show (c :: rest).length = rest.length + 1 from rfl, List.range_succ_eq_map,
      List.findSome?_cons, findSome?_map_general]
    simp only [fenceContentAt_succ]
    rw [fenceContentAt_zero]
    by_cases hc : c = bq ∧ rest.take 2 = [bq, bq]
    · rw [if_pos hc]
      show extractFirstFence (c :: rest) = _
      rw [extractFirstFence.eq_def]
      dsimp only
      rw [if_pos hc]
      cases hb : fenceBlockAfterOpen (rest.drop 2) with
      | some content => rfl
      | none =>
        rw [ih]
        rfl
    · rw [if_neg hc]
      show extractFirstFence (c :: rest) = _
      rw [extractFirstFence.eq_def]
      dsimp only
      rw [if_neg hc, ih]
      rfl

/-- C10: for every input text, `extract_shacl_code` returns the
stripped contents of the first fenced code block delimited by triple
backticks (optionally tagged `turtle`), with contents spanning
newlines (`re.DOTALL`); when the text contains no such block it
returns the entire text stripped — illustrated on a multi-line block
and on a fence-free text. -/
theorem extract_shacl_code_first_block :
    (∀ text : String,
      extract_shacl_code text =
        match firstFencedBlock text.data with
        | some content => stripS (String.mk content)
        | none => stripS text) ∧
    extract_shacl_code ("before ```turtle\nline1\nline2\n``` after") = ("line1\nline2") ∧
    extract_shacl_code ("no fence here ") = ("no fence here") := by
  refine ⟨?_, by decide, by decide⟩
  intro text
  unfold extract_shacl_code
  rw [extractFirstFence_eq]

theorem mem_cnGo : ∀ (fuel : Nat) (l : List Char) (x : Char),
    x ∈ cnGo fuel l → x ∈ l ∨ x = '\n' := by
  intro fuel
  induction fuel with
  | zero => intro l x hx; exact Or.inl hx
  | succ n ih =>
    intro l x hx
    cases l with
    | nil => simp [cnGo] at hx
    | cons c rest =>
      rw [cnGo] at hx
      by_cases hc : c = '\n'
      · rw [if_pos hc] at hx
        cases hfl : findLastNl rest with
        | some suf =>
          rw [hfl] at hx
          rcases List.mem_cons.1 hx with hx1 | hx2
          · exact Or.inr hx1
          · rcases ih suf x hx2 with h | h
            · exact Or.inl
                (List.mem_cons_of_mem c ((findLastNl_suffix rest suf hfl).sublist.subset h))
            · exact Or.inr h
        | none =>
          rw [hfl] at hx
          rcases List.mem_cons.1 hx with hx1 | hx2
          · exact Or.inr hx1
          · rcases ih rest x hx2 with h | h
            · exact Or.inl (List.mem_cons_of_mem c h)
            · exact Or.inr h
      · rw [if_neg hc] at hx
        rcases List.mem_cons.1 hx with hx1 | hx2
        · exact Or.inl (hx1 ▸ List.mem_cons_self c rest)
        · rcases ih rest x hx2 with h | h
          · exact Or.inl (List.mem_cons_of_mem c h)
          · exact Or.inr h

theorem mem_stripChars (l : List Char) (x : Char) (h : x ∈ stripChars l) : x ∈ l := by
  unfold stripChars at h
  rw [List.mem_reverse] at h
  have h1 := (List.dropWhile_sublist isPySpace).subset h
  rw [List.mem_reverse] at h1
  exact (List.dropWhile_sublist isPySpace).subset h1

theorem mem_pdsGo : ∀ (fuel : Nat) (l : List Char) (x : Char),
    x ∈ pdsGo fuel l → x ∈ l ∨ x = '.' ∨ x = '\n' := by
  intro fuel
  induction fuel with
  | zero => intro l x hx; exact Or.inl hx
  | succ n ih =>
    intro l x hx
    cases l with
    | nil => simp [pdsGo] at hx
    | cons c rest =>
      rw [pdsGo] at hx
      by_cases hp : (c :: rest).take 7 = atPrefixChars
      · rw [if_pos hp] at hx
        cases hta : tryAs 'x' ((c :: rest).drop 7) with
        | some suf =>
          rw [hta] at hx
          simp only [List.append_assoc, List.mem_append] at hx
          rcases hx with hx1 | hx2 | hx3 | hx4
          · exact Or.inl ((List.take_sublist 7 (c :: rest)).subset (hp ▸ hx1))
          · exact Or.inl ((List.drop_sublist 7 (c :: rest)).subset
              ((List.take_sublist _ _).subset hx2))
          · rcases List.mem_cons.1 hx3 with h | h2
            · exact Or.inr (Or.inl h)
            · rcases List.mem_cons.1 h2 with h | hfalse
              · exact Or.inr (Or.inr h)
              · simp at hfalse
          · rcases ih suf x hx4 with h | h
            · exact Or.inl ((List.drop_sublist 7 (c :: rest)).subset
                ((tryAs_suffix 'x' ((c :: rest).drop 7) suf hta).sublist.subset h))
            · exact Or.inr h
        | none =>
          rw [hta] at hx
          rcases List.mem_cons.1 hx with hx1 | hx2
          · exact Or.inl (hx1 ▸ List.mem_cons_self c rest)
          · rcases ih rest x hx2 with h | h
            · exact Or.inl (List.mem_cons_of_mem c h)
            · exact Or.inr h
      · rw [if_neg hp] at hx
        rcases List.mem_cons.1 hx with hx1 | hx2
        · exact Or.inl (hx1 ▸ List.mem_cons_self c rest)
        · rcases ih rest x hx2 with h | h
          · exact Or.inl (List.mem_cons_of_mem c h)
          · exact Or.inr h

theorem cleanAutoDoc_no_bq (s : String) : bq ∉ (cleanAutoDoc s).data := by
  intro hx
  have h0 : bq ∉ removeNonTurtle s.data := bq_not_mem_removeNonTurtle s.data
  have h1 : bq ∉ collapseNewlines (removeNonTurtle s.data) := by
    intro hmem
    rcases mem_cnGo _ _ _ hmem with h | h
    · exact h0 h
    · exact (by decide : ¬bq = '\n') h
  have hx' : bq ∈ prefixDotSub (stripChars (removeFencePlain (removeFenceTagged
      (collapseNewlines (removeNonTurtle s.data))))) := hx
  rw [removeFenceTagged_of_no_bq _ h1, removeFencePlain_of_no_bq _ h1] at hx'
  rcases mem_pdsGo _ _ _ hx' with h | h | h
  · exact h1 (mem_stripChars _ _ h)
  · exact (by decide : ¬bq = '.') h
  · exact (by decide : ¬bq = '\n') h

set_option maxRecDepth 100000 in
theorem docBeforeParseA_no_bq (s : String) : bq ∉ (docBeforeParseA s).data := by
  unfold docBeforeParseA
  by_cases hp : hasAtPrefixCI (cleanAutoDoc s).data
  · rw [if_pos hp]
    exact cleanAutoDoc_no_bq s
  · rw [if_neg hp]
    intro hx
    rw [String.data_append] at hx
    rcases List.mem_append.1 hx with h | h
    · exact (by decide : bq ∉ fourPrefixBlock.data) h
    · exact cleanAutoDoc_no_bq s h

/-- The step-3 branch of `process_next_step` (source lines 363-364)
composed with `create_result_interface` (lines 142-153): the LLM
response is passed through `extract_shacl_code` and inserted into the
output widget; neither `validate_shacl` nor `auto_correct_shacl`
appears anywhere on this path (they are defined in the module but
never called). -/
def step3Display (response : String) : String :=
  extract_shacl_code response

/-- C1 counterexample: for the step-3 LLM response consisting of a
backtick-carrying text with no fenced block, the displayed output is
the raw response itself, backtick included — while
`auto_correct_shacl` at the same input (whether the external parser
accepts or rejects the cleaned document) returns something else,
since its cleaning strips backticks; and `validate_shacl` does not
even return a document but a `(conforms, results_text)` pair.  So the
displayed step-3 output has not been passed through the repository's
SHACL cleaning/validation logic. -/
theorem step3_display_keeps_backtick_cex :
    step3Display ("x ` y") = ("x ` y") ∧
    auto_correct_shacl (fun _ => Except.ok (() : Unit)) ("x ` y") [] ≠ ("x ` y") ∧
    auto_correct_shacl (fun _ => (Except.error ("boom") : Except String Unit))
      ("x ` y") [] ≠ ("x ` y") := by
  exact ⟨by decide, by decide, by decide⟩

/-- C1 (amended): in the wizard's third step the displayed output is
`extract_shacl_code` applied to the raw LLM response and is not
passed through `validate_shacl` or `auto_correct_shacl` — the two
lint functions are never invoked on the step-3 path.  In particular,
every `auto_correct_shacl` output is free of backticks (whenever the
fallback table renders backtick-free, as it does in every actual run,
where names come from `\w+` matches), whereas the display forwards
whatever `extract_shacl_code` leaves. -/
theorem step3_output_bypasses_lint (G : Type) (parse : String → Except String G)
    (r : String) (cps : List (String × List SchemaProp))
    (hcps : bq ∉ (fallbackDoc cps).data) :
    step3Display r = extract_shacl_code r ∧
    bq ∉ (auto_correct_shacl parse r cps).data := by
  refine ⟨rfl, ?_⟩
  have hdef : auto_correct_shacl parse r cps =
      match parse (docBeforeParseA r) with
      | Except.ok _ => docBeforeParseA r
      | Except.error _ =>
        (cps.foldl
          (fun acc cp =>
            cp.2.foldl (fun a p => a ++ propBlockStr p) (acc ++ classHeaderStr cp.1))
          fallbackBase) ++ "." := rfl
  rw [hdef]
  cases parse (docBeforeParseA r) with
  | ok g => exact docBeforeParseA_no_bq r
  | error e =>
    have : ((cps.foldl
        (fun acc cp =>
          cp.2.foldl (fun a p => a ++ propBlockStr p) (acc ++ classHeaderStr cp.1))
        fallbackBase) ++ ".") = fallbackDoc cps := by
      rw [fallback_build_eq]
      rfl
    rw [this]
    exact hcps

set_option maxRecDepth 100000 in
/-- Witness for `step3_output_bypasses_lint` at the empty fallback
table, a trivially accepting parser and the response "x". -/
theorem step3_output_bypasses_lint_witness :
    bq ∉ (fallbackDoc []).data ∧
    (step3Display ("x") = extract_shacl_code ("x") ∧
      bq ∉ (auto_correct_shacl (fun _ => Except.ok (() : Unit)) ("x") []).data) := by
  have hcps : bq ∉ (fallbackDoc []).data := by decide
  exact ⟨hcps, step3_output_bypasses_lint Unit (fun _ => Except.ok ()) ("x") [] hcps⟩
